import Mathlib

/-!
Verification of the `extract-files` tree extractor.

The JavaScript source is shallowly embedded as follows.  JavaScript values
are `JSVal`: scalars are immediate, while arrays, plain objects, `FileList`
instances and class instances (`File`, `Blob`, `ReactNativeFile`, other)
live in a heap (`Heap`, an association list from addresses to `HObj`), so
that reference identity and aliasing are the identity of addresses.  The
recursive cloner `recurse` threads an explicit `ExtractState` (the `files`
map, the growing heap of clone allocations, a fresh-address counter) and
returns in `Except JSErr`: `.typeError` models the `TypeError` raised by
`recursed.has(value)` when `recursed` is `undefined` (the third argument is
omitted in the `FileList` branch of the source), and `.stackOverflow`
models exhaustion of the finite JavaScript call stack, accounted by the
`gas` parameter that bounds recursion depth.  The `recursed` parameter is
`Option (List Nat)`: `none` is JavaScript `undefined`, `some S` a `Set` of
container addresses.
-/

/-- A JavaScript value: scalars are immediate, every object is a reference
into the heap. -/
inductive JSVal where
  | undefined : JSVal
  | null : JSVal
  | bool : Bool → JSVal
  | num : Int → JSVal
  | str : String → JSVal
  | ref : Nat → JSVal
deriving DecidableEq, Repr

/-- A heap object: an `Array`, a plain object (`constructor === Object`,
fields in enumeration order), a `FileList`, a `File`, a `Blob`, a
`ReactNativeFile` (its three fields stored verbatim), or any other class
instance (`Date`, functions, boxed primitives, ...), which `extractFiles`
passes through unchanged. -/
inductive HObj where
  | arr : List JSVal → HObj
  | obj : List (String × JSVal) → HObj
  | filelist : List JSVal → HObj
  | file : HObj
  | blob : HObj
  | rnfile : JSVal → JSVal → JSVal → HObj
  | other : HObj
deriving DecidableEq, Repr

/-- The heap: an association list from addresses to objects; lookup takes
the first entry with the given address. -/
abbrev Heap := List (Nat × HObj)

/-- First-match lookup in a heap. -/
def Heap.lookup (H : Heap) (a : Nat) : Option HObj :=
  match H with
  | [] => none
  | (b, o) :: rest => if b = a then some o else Heap.lookup rest a

/-- Strict upper bound on the address a value can reference (`0` for
scalars, `a + 1` for `ref a`). -/
def JSVal.refBound : JSVal → Nat
  | .ref a => a + 1
  | _ => 0

/-- Strict upper bound on the addresses referenced from inside a heap
object. -/
def HObj.refBound : HObj → Nat
  | .arr items => (items.map JSVal.refBound).foldr max 0
  | .obj fields => (fields.map (fun p => p.2.refBound)).foldr max 0
  | .filelist items => (items.map JSVal.refBound).foldr max 0
  | .rnfile u n t => max u.refBound (max n.refBound t.refBound)
  | _ => 0

/-- An address strictly larger than every address bound in the heap and
every address referenced from inside it; used as the first clone address.
Address choice is an artifact of the embedding (JavaScript allocates
implicitly); freshness is all that matters. -/
def Heap.freshAddr (H : Heap) : Nat :=
  (H.map (fun p => max (p.1 + 1) p.2.refBound)).foldr max 0

/-- Property read `source[k]` on a plain object: the first field named `k`,
or `undefined` when absent (models destructuring a missing property). -/
def jsGetField (fields : List (String × JSVal)) (k : String) : JSVal :=
  match fields.find? (fun p => p.1 == k) with
  | some p => p.2
  | none => .undefined

/-- The `ReactNativeFile` marker class: exactly the three fields set by its
constructor. -/
structure ReactNativeFile where
  uri : JSVal
  name : JSVal
  type : JSVal
deriving DecidableEq, Repr

/-- The `ReactNativeFile` constructor
`constructor({ uri, name, type }) { this.uri = uri; this.name = name; this.type = type }`:
destructures the source object (absent properties read as `undefined`) and
stores the three values verbatim, with no validation. -/
def ReactNativeFile.construct (source : List (String × JSVal)) : ReactNativeFile :=
  { uri := jsGetField source "uri"
    name := jsGetField source "name"
    type := jsGetField source "type" }

/-- Errors a call can raise: `typeError` for `recursed.has(value)` with
`recursed === undefined`, `stackOverflow` for exhausting the call stack
(the `gas` bound of the embedding). -/
inductive JSErr where
  | typeError : JSErr
  | stackOverflow : JSErr
deriving DecidableEq, Repr

deriving instance DecidableEq for Except

/-- State threaded through `recurse`: the extracted-files map (an
insertion-ordered association list keyed by value identity, as a JavaScript
`Map`), the heap (input entries plus clone allocations), and the next fresh
address. -/
structure ExtractState where
  files : List (JSVal × List String)
  heap : Heap
  next : Nat
deriving DecidableEq, Repr

/-- `addFile` from the source: `files.get(file)` followed by either an
in-place `push` onto the stored path list (entry keeps its position) or a
`files.set(file, [path])` appending a new entry. -/
def addFile (files : List (JSVal × List String)) (v : JSVal) (p : String) :
    List (JSVal × List String) :=
  match files.find? (fun e => e.1 == v) with
  | some _ => files.map (fun e => if e.1 == v then (e.1, e.2 ++ [p]) else e)
  | none => files ++ [(v, [p])]

/-- The child-path base computed by `const prefix = path ? path + '.' : ''`:
a JavaScript string is truthy exactly when non-empty. -/
def childPre (path : String) : String :=
  if path = "" then "" else path ++ "."

/-- Maps `rec` over array entries at paths `pre + index` (index rendered in
decimal by `Nat.repr`), threading the state and propagating the first
error; models `value.map((item, index) => rec(item, prefix + index))`. -/
def mapChildren (rec : JSVal → String → ExtractState → Except JSErr (JSVal × ExtractState))
    (pre : String) : List JSVal → Nat → ExtractState →
    Except JSErr (List JSVal × ExtractState)
  | [], _, st => .ok ([], st)
  | item :: rest, idx, st =>
    match rec item (pre ++ Nat.repr idx) st with
    | .error e => .error e
    | .ok (c, st') =>
      match mapChildren rec pre rest (idx + 1) st' with
      | .error e => .error e
      | .ok (cs, st'') => .ok (c :: cs, st'')

/-- Maps `rec` over the fields of a plain object at paths `pre + key` in
enumeration order, threading the state; models
`for (const key in value) clone[key] = rec(value[key], prefix + key)`. -/
def mapFields (rec : JSVal → String → ExtractState → Except JSErr (JSVal × ExtractState))
    (pre : String) : List (String × JSVal) → ExtractState →
    Except JSErr (List (String × JSVal) × ExtractState)
  | [], st => .ok ([], st)
  | (k, w) :: rest, st =>
    match rec w (pre ++ k) st with
    | .error e => .error e
    | .ok (c, st') =>
      match mapFields rec pre rest st' with
      | .error e => .error e
      | .ok (cs, st'') => .ok ((k, c) :: cs, st'')

/-- `recurse(value, path, recursed)` from the source, one clause per branch
in source order:
1. extractable values: `addFile(value, path); return null`;
2. `FileList`: map entries through `recurse(item, prefix + index)` — the
   third argument is omitted in the source, so entries recurse with
   `recursed` equal to `undefined` (`none`);
3. arrays: `Array.isArray(value) && !recursed.has(value)` — when `recursed`
   is `undefined` the `has` call raises `TypeError`; when the address is
   already in the set the branch is skipped and the value falls through to
   the final `return value`; otherwise each entry recurses with a copy of
   the set extended by this address (`new Set(recursed).add(value)`);
4. plain objects (`value && value.constructor === Object`): as arrays, per
   key;
5. everything else is returned unchanged (aliased, not cloned).
Clones are freshly allocated: the clone address is taken before the
children run, and the clone object is appended to the heap after.  `gas`
bounds the recursion depth, modelling the finite call stack. -/
def recurse (isExt : JSVal → Bool) :
    Nat → JSVal → String → Option (List Nat) → ExtractState →
    Except JSErr (JSVal × ExtractState)
  | 0, _, _, _, _ => .error .stackOverflow
  | gas + 1, v, path, recursed, st =>
    if isExt v then
      .ok (.null, { st with files := addFile st.files v path })
    else
      match v with
      | .ref a =>
        match st.heap.lookup a with
        | some (.filelist items) =>
          match mapChildren (fun w p s => recurse isExt gas w p none s) (childPre path)
              items 0 { st with next := st.next + 1 } with
          | .error e => .error e
          | .ok (cs, st2) =>
            .ok (.ref st.next, { st2 with heap := st2.heap ++ [(st.next, .arr cs)] })
        | some (.arr items) =>
          match recursed with
          | none => .error .typeError
          | some S =>
            if a ∈ S then .ok (v, st)
            else
              match mapChildren (fun w p s => recurse isExt gas w p (some (S ++ [a])) s)
                  (childPre path) items 0 { st with next := st.next + 1 } with
              | .error e => .error e
              | .ok (cs, st2) =>
                .ok (.ref st.next, { st2 with heap := st2.heap ++ [(st.next, .arr cs)] })
        | some (.obj fields) =>
          match recursed with
          | none => .error .typeError
          | some S =>
            if a ∈ S then .ok (v, st)
            else
              match mapFields (fun w p s => recurse isExt gas w p (some (S ++ [a])) s)
                  (childPre path) fields { st with next := st.next + 1 } with
              | .error e => .error e
              | .ok (cs, st2) =>
                .ok (.ref st.next, { st2 with heap := st2.heap ++ [(st.next, .obj cs)] })
        | _ => .ok (v, st)
      | _ => .ok (v, st)

/-- Result of `extractFiles`: the clone, the extracted-files map, and the
post-call heap (input entries plus clone allocations). -/
structure ExtractResult where
  clone : JSVal
  files : List (JSVal × List String)
  heap : Heap
deriving DecidableEq, Repr

/-- `extractFiles(value, path, isExtractableFile)`: runs
`recurse(value, path, new Set())` from an empty files map, over the given
input heap. -/
def extractFiles (isExt : JSVal → Bool) (gas : Nat) (H : Heap) (v : JSVal)
    (path : String) : Except JSErr ExtractResult :=
  match recurse isExt gas v path (some []) ⟨[], H, Heap.freshAddr H⟩ with
  | .error e => .error e
  | .ok (c, st) => .ok ⟨c, st.files, st.heap⟩

/-- Modelled from the spec: the default extractability predicate
`isExtractableFile` is not under `src/` (only required by the extractor);
per §6 of the spec it classifies a value as extractable exactly when it is
an instance of the platform file type, the platform blob type, or the
`ReactNativeFile` marker. -/
def defaultIsExtractableFile (H : Heap) : JSVal → Bool :=
  fun v =>
    match v with
    | .ref a =>
      match Heap.lookup H a with
      | some .file => true
      | some .blob => true
      | some (.rnfile _ _ _) => true
      | _ => false
    | _ => false

/-- `extractFiles` with the default predicate (closed over the input
heap, which the call never mutates). -/
def extractFilesD (gas : Nat) (H : Heap) (v : JSVal) (path : String) :
    Except JSErr ExtractResult :=
  extractFiles (defaultIsExtractableFile H) gas H v path

/-- Field read `v[k]` when `v` references a plain object. -/
def objField (H : Heap) (v : JSVal) (k : String) : Option JSVal :=
  match v with
  | .ref a =>
    match Heap.lookup H a with
    | some (.obj fields) => (fields.find? (fun p => p.1 == k)).map (fun p => p.2)
    | _ => none
  | _ => none

/-- `true` when the value references an array, plain object or `FileList`
in the heap — the shapes `recurse` descends into. -/
def isContainerAt (H : Heap) (v : JSVal) : Bool :=
  match v with
  | .ref a =>
    match Heap.lookup H a with
    | some (.arr _) => true
    | some (.obj _) => true
    | some (.filelist _) => true
    | _ => false
  | _ => false

/-- A heap object is flat when, if it is a `FileList`, none of its entries
is a container — the documented assumption of the source (`It is safe to
assume that a FileList instance only contains File instances`). -/
def flatObj (H : Heap) (o : HObj) : Bool :=
  match o with
  | .filelist items => items.all (fun e => !(isContainerAt H e))
  | _ => true

/-- Every `FileList` in the heap contains only non-container entries. -/
def FilelistsFlat (H : Heap) : Prop :=
  ∀ p ∈ H, flatObj H p.2 = true

instance (H : Heap) : Decidable (FilelistsFlat H) := by
  unfold FilelistsFlat
  infer_instance

/-- Number of heap entries whose address is not in `S`; the termination
measure of the traversal. -/
def freeCount (H : Heap) (S : List Nat) : Nat :=
  (H.filter (fun p => decide (p.1 ∉ S))).length

/-- Evolution of the threaded state across any successful run: the heap
only grows at the end (clone allocations), the fresh counter never
decreases, the files map only evolves by `addFile` steps — its key list is
extended at the end, each existing entry's path list is extended at the
end, and distinctness of keys is preserved. -/
structure StepsTo (s s' : ExtractState) : Prop where
  heapExt : s.heap <+: s'.heap
  nextLe : s.next ≤ s'.next
  keysExt : s.files.map Prod.fst <+: s'.files.map Prod.fst
  pathsExt : ∀ k ps, (k, ps) ∈ s.files → ∃ qs, (k, ps ++ qs) ∈ s'.files
  nodupPres : (s.files.map Prod.fst).Nodup → (s'.files.map Prod.fst).Nodup

/-- Heap invariant of a run over input heap `H0` with clone addresses at or
above `B`: the input heap is an initial segment of the current heap, every
bound address is below the fresh counter, the counter stays at or above
`B`, and every entry below `B` is an input entry. -/
structure HeapInv (B : Nat) (H0 : Heap) (st : ExtractState) : Prop where
  base : H0 <+: st.heap
  keysLt : ∀ p, p ∈ st.heap → p.1 < st.next
  nextGe : B ≤ st.next
  lowOld : ∀ p, p ∈ st.heap → p.1 < B → p ∈ H0

/-- Input of the shared-sub-structure tests: a file at address `0`, the
array `[file]` at address `1`, and `{a: array, b: array}` at address `2` —
the same array reference under two keys. -/
def sharedArrayHeap : Heap :=
  [(0, .rnfile (.str "") (.str "") (.str "")),
   (1, .arr [.ref 0]),
   (2, .obj [("a", .ref 1), ("b", .ref 1)])]

/-- Input of the circular-reference test: the object `o` with `o.b = o` at
address `0`. -/
def cycleHeap : Heap := [(0, .obj [("b", .ref 0)])]

/-- A `FileList` whose single entry is an (empty, non-extractable) array:
`FileList([[]])`. -/
def filelistArrHeap : Heap := [(0, .filelist [.ref 1]), (1, .arr [])]

/-- Two distinct file instances with identical contents, the first
referenced twice: `{a: f, b: f, c: g}`. -/
def multiRefHeap : Heap :=
  [(0, .rnfile (.str "") (.str "") (.str "")),
   (1, .rnfile (.str "") (.str "") (.str "")),
   (2, .obj [("a", .ref 0), ("b", .ref 0), ("c", .ref 1)])]

/-- Input of the path-prefixing test: `{a: [f]}`. -/
def nestedFileHeap : Heap :=
  [(0, .rnfile (.str "") (.str "") (.str "")),
   (1, .arr [.ref 0]),
   (2, .obj [("a", .ref 1)])]

/-- A single file instance at address `0`. -/
def singleFileHeap : Heap := [(0, .rnfile (.str "") (.str "") (.str ""))]

/-- Post-call heap of the shared-array run: the input entries followed by
two distinct fresh array clones (addresses `4` and `5`) and the fresh
object clone (address `3`). -/
def sharedArrayResultHeap : Heap :=
  sharedArrayHeap ++
    [(4, .arr [.null]), (5, .arr [.null]), (3, .obj [("a", .ref 4), ("b", .ref 5)])]

/-- Post-call heap of the circular-reference run: the original object and
one fresh clone whose `b` field references the original. -/
def cycleResultHeap : Heap := [(0, .obj [("b", .ref 0)]), (1, .obj [("b", .ref 0)])]

/-- Post-call heap of the multiple-references run. -/
def multiRefResultHeap : Heap :=
  multiRefHeap ++ [(3, .obj [("a", .null), ("b", .null), ("c", .null)])]

/-- Post-call heap of the path-prefixing run. -/
def nestedFileResultHeap : Heap :=
  nestedFileHeap ++ [(4, .arr [.null]), (3, .obj [("a", .ref 4)])]

/-! Basic heap and accumulator lemmas. -/

theorem Heap.lookup_isSome_of_mem {H : Heap} {a : Nat} {o : HObj} (h : (a, o) ∈ H) :
    (Heap.lookup H a).isSome := by
  induction H with
  | nil => simp at h
  | cons p t ih =>
    obtain ⟨b, o'⟩ := p
    rw [List.mem_cons] at h
    rw [Heap.lookup]
    obtain h | h := h
    · injection h with h1 h2
      subst h1
      simp
    · split
      · simp
      · exact ih h

theorem Heap.lookup_mem {H : Heap} {a : Nat} {o : HObj} (h : Heap.lookup H a = some o) :
    (a, o) ∈ H := by
  induction H with
  | nil => simp [Heap.lookup] at h
  | cons p t ih =>
    obtain ⟨b, o'⟩ := p
    rw [Heap.lookup] at h
    split at h
    · rename_i hba
      injection h with h
      subst hba
      subst h
      exact List.mem_cons_self _ _
    · exact List.mem_cons_of_mem _ (ih h)

theorem Heap.lookup_append {H H2 : Heap} {a : Nat} (h : (Heap.lookup H a).isSome) :
    Heap.lookup (H ++ H2) a = Heap.lookup H a := by
  induction H with
  | nil => simp [Heap.lookup] at h
  | cons p t ih =>
    obtain ⟨b, o⟩ := p
    by_cases hba : b = a
    · simp [Heap.lookup, hba]
    · rw [Heap.lookup] at h
      rw [if_neg hba] at h
      simpa [Heap.lookup, hba] using ih h

theorem le_foldr_max {l : List Nat} {x : Nat} (h : x ∈ l) : x ≤ l.foldr max 0 := by
  induction l with
  | nil => simp at h
  | cons y t ih =>
    rw [List.mem_cons] at h
    rw [List.foldr_cons]
    obtain rfl | h := h
    · exact le_max_left _ _
    · exact le_trans (ih h) (le_max_right _ _)

theorem Heap.key_lt_freshAddr {H : Heap} {p : Nat × HObj} (h : p ∈ H) :
    p.1 < Heap.freshAddr H := by
  have h1 : max (p.1 + 1) p.2.refBound ≤ Heap.freshAddr H :=
    le_foldr_max (List.mem_map_of_mem _ h)
  have h2 := le_trans (le_max_left (p.1 + 1) p.2.refBound) h1
  omega

theorem Heap.refBound_le_freshAddr {H : Heap} {p : Nat × HObj} (h : p ∈ H) :
    p.2.refBound ≤ Heap.freshAddr H :=
  le_trans (le_max_right _ _) (le_foldr_max (List.mem_map_of_mem _ h))

theorem refBound_le_of_mem_arr {items : List JSVal} {w : JSVal} (h : w ∈ items) :
    w.refBound ≤ (HObj.arr items).refBound :=
  le_foldr_max (List.mem_map_of_mem _ h)

theorem refBound_le_of_mem_filelist {items : List JSVal} {w : JSVal} (h : w ∈ items) :
    w.refBound ≤ (HObj.filelist items).refBound :=
  le_foldr_max (List.mem_map_of_mem _ h)

theorem refBound_le_of_mem_obj {fields : List (String × JSVal)} {q : String × JSVal}
    (h : q ∈ fields) : q.2.refBound ≤ (HObj.obj fields).refBound :=
  le_foldr_max (List.mem_map_of_mem _ h)

theorem addFile_update_keys (files : List (JSVal × List String)) (v : JSVal) (p : String) :
    (files.map (fun e => if e.1 == v then (e.1, e.2 ++ [p]) else e)).map Prod.fst
      = files.map Prod.fst := by
  induction files with
  | nil => rfl
  | cons e t ih =>
    simp only [List.map_cons, ih]
    congr 1
    split <;> rfl

theorem addFile_keys (files : List (JSVal × List String)) (v : JSVal) (p : String) :
    (addFile files v p).map Prod.fst = files.map Prod.fst
      ∨ (addFile files v p).map Prod.fst = files.map Prod.fst ++ [v] := by
  unfold addFile
  split
  · exact Or.inl (addFile_update_keys files v p)
  · right
    simp

theorem not_mem_keys_of_find?_none {files : List (JSVal × List String)} {v : JSVal}
    (h : files.find? (fun e => e.1 == v) = none) : v ∉ files.map Prod.fst := by
  intro hv
  rw [List.find?_eq_none] at h
  obtain ⟨e, he, hfst⟩ := List.mem_map.mp hv
  exact absurd (show (e.1 == v) = true by simp [hfst]) (h e he)

theorem addFile_nodup {files : List (JSVal × List String)} {v : JSVal} {p : String}
    (h : (files.map Prod.fst).Nodup) : ((addFile files v p).map Prod.fst).Nodup := by
  unfold addFile
  split
  · rw [addFile_update_keys]
    exact h
  · rename_i hn
    rw [List.map_append]
    rw [List.nodup_append]
    refine ⟨h, List.nodup_singleton v, ?_⟩
    intro x hx hx2
    simp only [List.map_cons, List.map_nil, List.mem_singleton] at hx2
    subst hx2
    exact not_mem_keys_of_find?_none hn hx

theorem addFile_pathsExt {files : List (JSVal × List String)} {k : JSVal} {ps : List String}
    (v : JSVal) (p : String) (h : (k, ps) ∈ files) :
    ∃ qs, (k, ps ++ qs) ∈ addFile files v p := by
  unfold addFile
  split
  · by_cases hkv : k = v
    · subst hkv
      exact ⟨[p], List.mem_map.mpr ⟨(k, ps), h, by simp⟩⟩
    · refine ⟨[], ?_⟩
      rw [List.append_nil]
      exact List.mem_map.mpr ⟨(k, ps), h, by simp [beq_iff_eq, hkv]⟩
  · refine ⟨[], ?_⟩
    rw [List.append_nil]
    exact List.mem_append_left _ h

theorem addFile_self_append {files : List (JSVal × List String)} {v : JSVal} {ps : List String}
    (p : String) (h : (v, ps) ∈ files) : (v, ps ++ [p]) ∈ addFile files v p := by
  unfold addFile
  split
  · exact List.mem_map.mpr ⟨(v, ps), h, by simp⟩
  · rename_i hn
    rw [List.find?_eq_none] at hn
    exact absurd (show ((v, ps).1 == v) = true by simp) (hn _ h)

theorem addFile_new {files : List (JSVal × List String)} {v : JSVal} (p : String)
    (h : files.find? (fun e => e.1 == v) = none) :
    addFile files v p = files ++ [(v, [p])] := by
  unfold addFile
  rw [h]

/-! State-evolution lemmas: every successful run only extends the state. -/

theorem StepsTo.refl (s : ExtractState) : StepsTo s s :=
  ⟨List.prefix_rfl, le_refl _, List.prefix_rfl,
    fun _ ps h => ⟨[], by rw [List.append_nil]; exact h⟩, id⟩

theorem StepsTo.trans {s1 s2 s3 : ExtractState} (h1 : StepsTo s1 s2) (h2 : StepsTo s2 s3) :
    StepsTo s1 s3 := by
  refine ⟨h1.heapExt.trans h2.heapExt, le_trans h1.nextLe h2.nextLe,
    h1.keysExt.trans h2.keysExt, ?_, fun hn => h2.nodupPres (h1.nodupPres hn)⟩
  intro k ps h
  obtain ⟨qs, hq⟩ := h1.pathsExt k ps h
  obtain ⟨rs, hr⟩ := h2.pathsExt k (ps ++ qs) hq
  exact ⟨qs ++ rs, by rw [← List.append_assoc]; exact hr⟩

theorem stepsTo_addFile (st : ExtractState) (v : JSVal) (p : String) :
    StepsTo st { st with files := addFile st.files v p } := by
  refine ⟨List.prefix_rfl, le_refl _, ?_, ?_, ?_⟩
  · rcases addFile_keys st.files v p with h | h
    · rw [h]
    · rw [h]
      exact List.prefix_append _ _
  · intro k ps h
    exact addFile_pathsExt v p h
  · intro hn
    exact addFile_nodup hn

theorem stepsTo_bump (st : ExtractState) : StepsTo st { st with next := st.next + 1 } :=
  ⟨List.prefix_rfl, Nat.le_succ _, List.prefix_rfl,
    fun _ ps h => ⟨[], by rw [List.append_nil]; exact h⟩, id⟩

theorem stepsTo_alloc {st st2 : ExtractState} (a : Nat) (o : HObj)
    (h : StepsTo { st with next := st.next + 1 } st2) :
    StepsTo st { st2 with heap := st2.heap ++ [(a, o)] } := by
  refine ⟨?_, ?_, h.keysExt, h.pathsExt, h.nodupPres⟩
  · exact List.IsPrefix.trans h.heapExt (List.prefix_append _ _)
  · exact le_trans (Nat.le_succ _) h.nextLe

theorem mapChildren_steps
    {rec : JSVal → String → ExtractState → Except JSErr (JSVal × ExtractState)} {pre : String}
    (hrec : ∀ w p s c s', rec w p s = .ok (c, s') → StepsTo s s') :
    ∀ {items : List JSVal} {idx : Nat} {st : ExtractState} {cs : List JSVal}
      {st' : ExtractState},
      mapChildren rec pre items idx st = .ok (cs, st') → StepsTo st st' := by
  intro items
  induction items with
  | nil =>
    intro idx st cs st' h
    rw [mapChildren] at h
    injection h with h
    injection h with h1 h2
    subst h2
    exact StepsTo.refl st
  | cons item rest ih =>
    intro idx st cs st' h
    rw [mapChildren] at h
    split at h
    · cases h
    · rename_i c st1 heq1
      split at h
      · cases h
      · rename_i cs2 st2 heq2
        injection h with h
        injection h with h1 h2
        subst h2
        exact (hrec _ _ _ _ _ heq1).trans (ih heq2)

theorem mapFields_steps
    {rec : JSVal → String → ExtractState → Except JSErr (JSVal × ExtractState)} {pre : String}
    (hrec : ∀ w p s c s', rec w p s = .ok (c, s') → StepsTo s s') :
    ∀ {fields : List (String × JSVal)} {st : ExtractState} {cs : List (String × JSVal)}
      {st' : ExtractState},
      mapFields rec pre fields st = .ok (cs, st') → StepsTo st st' := by
  intro fields
  induction fields with
  | nil =>
    intro st cs st' h
    rw [mapFields] at h
    injection h with h
    injection h with h1 h2
    subst h2
    exact StepsTo.refl st
  | cons kw rest ih =>
    obtain ⟨k, w⟩ := kw
    intro st cs st' h
    rw [mapFields] at h
    split at h
    · cases h
    · rename_i c st1 heq1
      split at h
      · cases h
      · rename_i cs2 st2 heq2
        injection h with h
        injection h with h1 h2
        subst h2
        exact (hrec _ _ _ _ _ heq1).trans (ih heq2)

theorem mapFields_keys
    {rec : JSVal → String → ExtractState → Except JSErr (JSVal × ExtractState)} {pre : String} :
    ∀ {fields : List (String × JSVal)} {st : ExtractState} {cs : List (String × JSVal)}
      {st' : ExtractState},
      mapFields rec pre fields st = .ok (cs, st') → cs.map Prod.fst = fields.map Prod.fst := by
  intro fields
  induction fields with
  | nil =>
    intro st cs st' h
    rw [mapFields] at h
    injection h with h
    injection h with h1 h2
    subst h1
    rfl
  | cons kw rest ih =>
    obtain ⟨k, w⟩ := kw
    intro st cs st' h
    rw [mapFields] at h
    split at h
    · cases h
    · rename_i c st1 heq1
      split at h
      · cases h
      · rename_i cs2 st2 heq2
        injection h with h
        injection h with h1 h2
        subst h1
        simp only [List.map_cons]
        rw [ih heq2]

theorem recurse_steps (isExt : JSVal → Bool) :
    ∀ (gas : Nat) (v : JSVal) (path : String) (rcd : Option (List Nat)) (st : ExtractState)
      (c : JSVal) (st' : ExtractState),
      recurse isExt gas v path rcd st = .ok (c, st') → StepsTo st st' := by
  intro gas
  induction gas with
  | zero =>
    intro v path rcd st c st' h
    rw [recurse] at h
    cases h
  | succ g ih =>
    intro v path rcd st c st' h
    cases v
    all_goals simp only [recurse] at h
    all_goals repeat' split at h
    all_goals try cases h
    all_goals try exact StepsTo.refl st
    all_goals
      first
      | exact stepsTo_addFile st _ _
      | (rename_i cs st2 heq
         exact stepsTo_alloc _ _
           (mapChildren_steps (fun w p s c s' hh => ih w p _ s c s' hh) heq))
      | (rename_i cs st2 heq
         exact stepsTo_alloc _ _
           (mapFields_steps (fun w p s c s' hh => ih w p _ s c s' hh) heq))

/-! Heap-invariant preservation along a run. -/

theorem heapInv_bump {B : Nat} {H0 : Heap} {st : ExtractState} (h : HeapInv B H0 st) :
    HeapInv B H0 { st with next := st.next + 1 } :=
  ⟨h.base, fun p hp => Nat.lt_succ_of_lt (h.keysLt p hp),
    le_trans h.nextGe (Nat.le_succ _), h.lowOld⟩

theorem heapInv_addFile {B : Nat} {H0 : Heap} {st : ExtractState} (h : HeapInv B H0 st)
    (v : JSVal) (p : String) : HeapInv B H0 { st with files := addFile st.files v p } :=
  ⟨h.base, h.keysLt, h.nextGe, h.lowOld⟩

theorem heapInv_alloc {B : Nat} {H0 : Heap} {st st2 : ExtractState} (o : HObj)
    (hst : HeapInv B H0 st) (h2 : HeapInv B H0 st2) (hnext : st.next < st2.next) :
    HeapInv B H0 { st2 with heap := st2.heap ++ [(st.next, o)] } := by
  refine ⟨h2.base.trans (List.prefix_append _ _), ?_, h2.nextGe, ?_⟩
  · intro p hp
    rcases List.mem_append.mp hp with hp | hp
    · exact h2.keysLt p hp
    · rw [List.mem_singleton] at hp
      subst hp
      exact hnext
  · intro p hp hlow
    rcases List.mem_append.mp hp with hp | hp
    · exact h2.lowOld p hp hlow
    · rw [List.mem_singleton] at hp
      subst hp
      exact absurd hlow (by have := hst.nextGe; simp only; omega)

theorem mapChildren_inv
    {rec : JSVal → String → ExtractState → Except JSErr (JSVal × ExtractState)} {pre : String}
    {Q : ExtractState → Prop}
    (hrec : ∀ w p s c s', rec w p s = .ok (c, s') → Q s → Q s') :
    ∀ {items : List JSVal} {idx : Nat} {st : ExtractState} {cs : List JSVal}
      {st' : ExtractState},
      mapChildren rec pre items idx st = .ok (cs, st') → Q st → Q st' := by
  intro items
  induction items with
  | nil =>
    intro idx st cs st' h hq
    rw [mapChildren] at h
    injection h with h
    injection h with h1 h2
    subst h2
    exact hq
  | cons item rest ih =>
    intro idx st cs st' h hq
    rw [mapChildren] at h
    split at h
    · cases h
    · rename_i c st1 heq1
      split at h
      · cases h
      · rename_i cs2 st2 heq2
        injection h with h
        injection h with h1 h2
        subst h2
        exact ih heq2 (hrec _ _ _ _ _ heq1 hq)

theorem mapFields_inv
    {rec : JSVal → String → ExtractState → Except JSErr (JSVal × ExtractState)} {pre : String}
    {Q : ExtractState → Prop}
    (hrec : ∀ w p s c s', rec w p s = .ok (c, s') → Q s → Q s') :
    ∀ {fields : List (String × JSVal)} {st : ExtractState} {cs : List (String × JSVal)}
      {st' : ExtractState},
      mapFields rec pre fields st = .ok (cs, st') → Q st → Q st' := by
  intro fields
  induction fields with
  | nil =>
    intro st cs st' h hq
    rw [mapFields] at h
    injection h with h
    injection h with h1 h2
    subst h2
    exact hq
  | cons kw rest ih =>
    obtain ⟨k, w⟩ := kw
    intro st cs st' h hq
    rw [mapFields] at h
    split at h
    · cases h
    · rename_i c st1 heq1
      split at h
      · cases h
      · rename_i cs2 st2 heq2
        injection h with h
        injection h with h1 h2
        subst h2
        exact ih heq2 (hrec _ _ _ _ _ heq1 hq)

theorem recurse_inv (isExt : JSVal → Bool) (B : Nat) (H0 : Heap) :
    ∀ (gas : Nat) (v : JSVal) (path : String) (rcd : Option (List Nat)) (st : ExtractState)
      (c : JSVal) (st' : ExtractState),
      recurse isExt gas v path rcd st = .ok (c, st') → HeapInv B H0 st → HeapInv B H0 st' := by
  intro gas
  induction gas with
  | zero =>
    intro v path rcd st c st' h hq
    rw [recurse] at h
    cases h
  | succ g ih =>
    intro v path rcd st c st' h hq
    cases v
    all_goals simp only [recurse] at h
    all_goals repeat' split at h
    all_goals try cases h
    all_goals try exact hq
    all_goals
      first
      | exact heapInv_addFile hq _ _
      | (rename_i cs st2 heq
         refine heapInv_alloc _ hq
           (mapChildren_inv (fun w p s c s' hh hs => ih w p _ s c s' hh hs) heq
             (heapInv_bump hq)) ?_
         have := (mapChildren_steps
           (fun w p s c s' hh => recurse_steps isExt g w p _ s c s' hh) heq).nextLe
         simp only at this
         omega)
      | (rename_i cs st2 heq
         refine heapInv_alloc _ hq
           (mapFields_inv (fun w p s c s' hh hs => ih w p _ s c s' hh hs) heq
             (heapInv_bump hq)) ?_
         have := (mapFields_steps
           (fun w p s c s' hh => recurse_steps isExt g w p _ s c s' hh) heq).nextLe
         simp only at this
         omega)

/-! Progress: with adequate gas, flat file lists and a well-formed state,
a run never fails. -/

theorem freeCount_cons (p : Nat × HObj) (t : Heap) (S : List Nat) :
    freeCount (p :: t) S = (if p.1 ∈ S then 0 else 1) + freeCount t S := by
  unfold freeCount
  rw [List.filter_cons]
  by_cases h : p.1 ∈ S
  · simp [h]
  · simp [h, Nat.add_comm]

theorem freeCount_sub_le {S S' : List Nat} (H : Heap) (hs : ∀ a ∈ S, a ∈ S') :
    freeCount H S' ≤ freeCount H S := by
  induction H with
  | nil => exact le_refl _
  | cons p t ih =>
    rw [freeCount_cons, freeCount_cons]
    have hc : (if p.1 ∈ S' then 0 else 1) ≤ (if p.1 ∈ S then 0 else 1) := by
      by_cases hp : p.1 ∈ S
      · simp [hs _ hp]
      · split <;> omega
    exact Nat.add_le_add hc ih

theorem freeCount_append_lt {H : Heap} {S : List Nat} {a : Nat}
    (ha : a ∈ H.map Prod.fst) (hna : a ∉ S) :
    freeCount H (S ++ [a]) < freeCount H S := by
  induction H with
  | nil => simp at ha
  | cons p t ih =>
    rw [freeCount_cons, freeCount_cons]
    by_cases hpa : p.1 = a
    · rw [if_pos (by rw [hpa]; exact List.mem_append_right _ (List.mem_singleton_self _)),
        if_neg (by rw [hpa]; exact hna)]
      have h2 : freeCount t (S ++ [a]) ≤ freeCount t S :=
        freeCount_sub_le t fun x hx => List.mem_append_left _ hx
      omega
    · have hmem : a ∈ t.map Prod.fst := by
        rw [List.map_cons, List.mem_cons] at ha
        rcases ha with h | h
        · exact absurd h.symm hpa
        · exact h
      have hiff : (p.1 ∈ S ++ [a]) ↔ (p.1 ∈ S) := by
        simp [List.mem_append, hpa]
      have := ih hmem
      by_cases hp : p.1 ∈ S
      · rw [if_pos (hiff.mpr hp), if_pos hp]
        omega
      · rw [if_neg (fun hc => hp (hiff.mp hc)), if_neg hp]
        omega

theorem freeCount_le_length (H : Heap) (S : List Nat) : freeCount H S ≤ H.length :=
  List.length_filter_le _ _

theorem lookup_low {B : Nat} {H0 : Heap} {st : ExtractState} (h : HeapInv B H0 st)
    {a : Nat} (ha : a < B) : Heap.lookup st.heap a = Heap.lookup H0 a := by
  cases hl : Heap.lookup H0 a with
  | some o =>
    obtain ⟨t, ht⟩ := h.base
    rw [← ht, Heap.lookup_append (by rw [hl]; rfl), hl]
  | none =>
    cases hl2 : Heap.lookup st.heap a with
    | none => rfl
    | some o =>
      have hmem := h.lowOld _ (Heap.lookup_mem hl2) ha
      have hs := Heap.lookup_isSome_of_mem hmem
      rw [hl] at hs
      cases hs

theorem mapChildren_ok
    (rec : JSVal → String → ExtractState → Except JSErr (JSVal × ExtractState)) (pre : String)
    {Q : ExtractState → Prop} {W : JSVal → Prop}
    (hpres : ∀ w p s c s', rec w p s = .ok (c, s') → Q s → Q s')
    (hok : ∀ w p s, W w → Q s → ∃ c s', rec w p s = .ok (c, s')) :
    ∀ {items : List JSVal} (idx : Nat) {st : ExtractState},
      (∀ w ∈ items, W w) → Q st →
      ∃ cs st', mapChildren rec pre items idx st = .ok (cs, st') := by
  intro items
  induction items with
  | nil =>
    intro idx st _ _
    exact ⟨[], st, by rw [mapChildren]⟩
  | cons item rest ih =>
    intro idx st hW hq
    obtain ⟨c, st1, h1⟩ := hok item (pre ++ Nat.repr idx) st (hW _ (List.mem_cons_self _ _)) hq
    obtain ⟨cs, st2, h2⟩ :=
      ih (idx + 1) (fun w hw => hW _ (List.mem_cons_of_mem _ hw)) (hpres _ _ _ _ _ h1 hq)
    exact ⟨c :: cs, st2, by simp only [mapChildren, h1, h2]⟩

theorem mapFields_ok
    (rec : JSVal → String → ExtractState → Except JSErr (JSVal × ExtractState)) (pre : String)
    {Q : ExtractState → Prop} {W : JSVal → Prop}
    (hpres : ∀ w p s c s', rec w p s = .ok (c, s') → Q s → Q s')
    (hok : ∀ w p s, W w → Q s → ∃ c s', rec w p s = .ok (c, s')) :
    ∀ {fields : List (String × JSVal)} {st : ExtractState},
      (∀ kw ∈ fields, W kw.2) → Q st →
      ∃ cs st', mapFields rec pre fields st = .ok (cs, st') := by
  intro fields
  induction fields with
  | nil =>
    intro st _ _
    exact ⟨[], st, by rw [mapFields]⟩
  | cons kw rest ih =>
    obtain ⟨k, w⟩ := kw
    intro st hW hq
    obtain ⟨c, st1, h1⟩ := hok w (pre ++ k) st (hW (k, w) (List.mem_cons_self _ _)) hq
    obtain ⟨cs, st2, h2⟩ :=
      ih (fun q hq2 => hW _ (List.mem_cons_of_mem _ hq2)) (hpres _ _ _ _ _ h1 hq)
    exact ⟨(k, c) :: cs, st2, by simp only [mapFields, h1, h2]⟩

theorem recurse_none_ok (isExt : JSVal → Bool) {B : Nat} {H0 : Heap} {s : ExtractState}
    (hInv : HeapInv B H0 s) {e : JSVal} (hB : e.refBound ≤ B)
    (hflatE : isContainerAt H0 e = false) (g : Nat) (p : String) :
    ∃ c s', recurse isExt (g + 1) e p none s = .ok (c, s') := by
  by_cases hx : isExt e = true
  · cases e
    all_goals simp only [recurse]
    all_goals rw [if_pos hx]
    all_goals exact ⟨_, _, rfl⟩
  · cases e with
    | ref a =>
      have ha : a < B := by
        simp only [JSVal.refBound] at hB
        omega
      simp only [recurse]
      rw [if_neg hx, lookup_low hInv ha]
      simp only [isContainerAt] at hflatE
      cases hl : Heap.lookup H0 a with
      | none => exact ⟨_, _, rfl⟩
      | some o =>
        cases o with
        | arr items => rw [hl] at hflatE; simp at hflatE
        | obj fields => rw [hl] at hflatE; simp at hflatE
        | filelist items => rw [hl] at hflatE; simp at hflatE
        | file => exact ⟨_, _, rfl⟩
        | blob => exact ⟨_, _, rfl⟩
        | rnfile u n t => exact ⟨_, _, rfl⟩
        | other => exact ⟨_, _, rfl⟩
    | undefined => simp only [recurse]; rw [if_neg hx]; exact ⟨_, _, rfl⟩
    | null => simp only [recurse]; rw [if_neg hx]; exact ⟨_, _, rfl⟩
    | bool b => simp only [recurse]; rw [if_neg hx]; exact ⟨_, _, rfl⟩
    | num n => simp only [recurse]; rw [if_neg hx]; exact ⟨_, _, rfl⟩
    | str s2 => simp only [recurse]; rw [if_neg hx]; exact ⟨_, _, rfl⟩

theorem recurse_ok (isExt : JSVal → Bool) {B : Nat} {H0 : Heap}
    (hrefs : ∀ p ∈ H0, HObj.refBound p.2 ≤ B) (hflat : FilelistsFlat H0) :
    ∀ (gas : Nat) (v : JSVal) (path : String) (S : List Nat) (st : ExtractState),
      HeapInv B H0 st → v.refBound ≤ B → 2 + freeCount H0 S ≤ gas →
      ∃ c st', recurse isExt gas v path (some S) st = .ok (c, st') := by
  intro gas
  induction gas with
  | zero =>
    intro v path S st _ _ hg
    omega
  | succ g ih =>
    intro v path S st hInv hvB hg
    by_cases hx : isExt v = true
    · cases v
      all_goals simp only [recurse]
      all_goals rw [if_pos hx]
      all_goals exact ⟨_, _, rfl⟩
    · cases v with
      | ref a =>
        have ha : a < B := by
          simp only [JSVal.refBound] at hvB
          omega
        cases hl : Heap.lookup H0 a with
        | none =>
          simp only [recurse]
          rw [if_neg hx]
          simp only [lookup_low hInv ha, hl]
          exact ⟨_, _, rfl⟩
        | some o =>
          have hmem : (a, o) ∈ H0 := Heap.lookup_mem hl
          have hao := hrefs _ hmem
          cases o with
          | file =>
            simp only [recurse]
            rw [if_neg hx]
            simp only [lookup_low hInv ha, hl]
            exact ⟨_, _, rfl⟩
          | blob =>
            simp only [recurse]
            rw [if_neg hx]
            simp only [lookup_low hInv ha, hl]
            exact ⟨_, _, rfl⟩
          | rnfile u n t =>
            simp only [recurse]
            rw [if_neg hx]
            simp only [lookup_low hInv ha, hl]
            exact ⟨_, _, rfl⟩
          | other =>
            simp only [recurse]
            rw [if_neg hx]
            simp only [lookup_low hInv ha, hl]
            exact ⟨_, _, rfl⟩
          | filelist items =>
            obtain ⟨g2, rfl⟩ : ∃ g2, g = g2 + 1 := ⟨g - 1, by omega⟩
            have hfl : flatObj H0 (.filelist items) = true := hflat _ hmem
            simp only [flatObj, List.all_eq_true] at hfl
            obtain ⟨cs, st2, hrun⟩ := mapChildren_ok
              (fun w p s => recurse isExt (g2 + 1) w p none s) (childPre path)
              (Q := HeapInv B H0)
              (W := fun w => w.refBound ≤ B ∧ isContainerAt H0 w = false)
              (fun w p s c s' hh hs => recurse_inv isExt B H0 (g2 + 1) w p none s c s' hh hs)
              (fun w p s hw hs => recurse_none_ok isExt hs hw.1 hw.2 g2 p)
              0
              (fun w hw => ⟨le_trans (refBound_le_of_mem_filelist hw) hao, by
                have := hfl w hw
                simpa using this⟩)
              (heapInv_bump hInv)
            rw [recurse]
            rw [if_neg hx]
            simp only [lookup_low hInv ha, hl]
            rw [hrun]
            exact ⟨_, _, rfl⟩
          | arr items =>
            by_cases hmemS : a ∈ S
            · rw [recurse]
              rw [if_neg hx]
              simp only [lookup_low hInv ha, hl]
              rw [if_pos hmemS]
              exact ⟨_, _, rfl⟩
            · have hdec : freeCount H0 (S ++ [a]) < freeCount H0 S :=
                freeCount_append_lt (List.mem_map.mpr ⟨(a, .arr items), hmem, rfl⟩) hmemS
              obtain ⟨cs, st2, hrun⟩ := mapChildren_ok
                (fun w p s => recurse isExt g w p (some (S ++ [a])) s) (childPre path)
                (Q := HeapInv B H0)
                (W := fun w => w.refBound ≤ B)
                (fun w p s c s' hh hs => recurse_inv isExt B H0 g w p _ s c s' hh hs)
                (fun w p s hw hs => ih w p (S ++ [a]) s hs hw (by omega))
                0
                (fun w hw => le_trans (refBound_le_of_mem_arr hw) hao)
                (heapInv_bump hInv)
              rw [recurse]
              rw [if_neg hx]
              simp only [lookup_low hInv ha, hl]
              rw [if_neg hmemS, hrun]
              exact ⟨_, _, rfl⟩
          | obj fields =>
            by_cases hmemS : a ∈ S
            · rw [recurse]
              rw [if_neg hx]
              simp only [lookup_low hInv ha, hl]
              rw [if_pos hmemS]
              exact ⟨_, _, rfl⟩
            · have hdec : freeCount H0 (S ++ [a]) < freeCount H0 S :=
                freeCount_append_lt (List.mem_map.mpr ⟨(a, .obj fields), hmem, rfl⟩) hmemS
              obtain ⟨cs, st2, hrun⟩ := mapFields_ok
                (fun w p s => recurse isExt g w p (some (S ++ [a])) s) (childPre path)
                (Q := HeapInv B H0)
                (W := fun w => w.refBound ≤ B)
                (fun w p s c s' hh hs => recurse_inv isExt B H0 g w p _ s c s' hh hs)
                (fun w p s hw hs => ih w p (S ++ [a]) s hs hw (by omega))
                (fun q hq2 => le_trans (refBound_le_of_mem_obj hq2) hao)
                (heapInv_bump hInv)
              rw [recurse]
              rw [if_neg hx]
              simp only [lookup_low hInv ha, hl]
              rw [if_neg hmemS, hrun]
              exact ⟨_, _, rfl⟩
      | undefined => simp only [recurse]; rw [if_neg hx]; exact ⟨_, _, rfl⟩
      | null => simp only [recurse]; rw [if_neg hx]; exact ⟨_, _, rfl⟩
      | bool b => simp only [recurse]; rw [if_neg hx]; exact ⟨_, _, rfl⟩
      | num n => simp only [recurse]; rw [if_neg hx]; exact ⟨_, _, rfl⟩
      | str s2 => simp only [recurse]; rw [if_neg hx]; exact ⟨_, _, rfl⟩

/-! Claim theorems. -/

/-- C1: for the input `{a: arr, b: arr}` with `arr = [f]` — the same array
reference at two positions that are not on each other's ancestor chain —
`extractFiles` recurses into the array under both keys (each recursive call
receives a per-branch copy of the visited set), so the index maps `f` to
`["a.0", "b.0"]` and the clone is `{a: [null], b: [null]}`: the shared
acyclic sub-tree is never mistaken for a cycle. -/
theorem extractFiles_shared_array_both_branches :
    extractFilesD 10 sharedArrayHeap (.ref 2) "" =
      .ok ⟨.ref 3, [(.ref 0, ["a.0", "b.0"])], sharedArrayResultHeap⟩
    ∧ Heap.lookup sharedArrayResultHeap 3 = some (.obj [("a", .ref 4), ("b", .ref 5)])
    ∧ Heap.lookup sharedArrayResultHeap 4 = some (.arr [.null])
    ∧ Heap.lookup sharedArrayResultHeap 5 = some (.arr [.null]) :=
  ⟨rfl, rfl, rfl, rfl⟩

/-- C10: container aliasing is not preserved in the clone: for
`{a: arr, b: arr}` the clone holds a distinct freshly allocated array at
each position — `clone.a` is `ref 4` and `clone.b` is `ref 5`, different
references absent from the input heap, with structurally equal contents
`[null]`. -/
theorem extractFiles_clone_aliasing_not_preserved :
    objField sharedArrayResultHeap (.ref 3) "a" = some (.ref 4)
    ∧ objField sharedArrayResultHeap (.ref 3) "b" = some (.ref 5)
    ∧ (JSVal.ref 4 ≠ .ref 5)
    ∧ Heap.lookup sharedArrayResultHeap 4 = Heap.lookup sharedArrayResultHeap 5
    ∧ Heap.lookup sharedArrayHeap 4 = none
    ∧ Heap.lookup sharedArrayHeap 5 = none
    ∧ extractFilesD 10 sharedArrayHeap (.ref 2) "" =
        .ok ⟨.ref 3, [(.ref 0, ["a.0", "b.0"])], sharedArrayResultHeap⟩ :=
  ⟨rfl, rfl, by decide, rfl, rfl, rfl, rfl⟩

/-- C2 counterexample: for the self-referencing input `o.b = o` with the
default predicate, the call terminates with an empty index and a fresh
clone `c` at address `1`, but `c.b` is the original `o` (address `0`), not
`c` itself: the claimed reference-level equality `c.b = c` is false on the
code. -/
theorem extractFiles_cycle_clone_not_self :
    extractFilesD 10 cycleHeap (.ref 0) "" = .ok ⟨.ref 1, [], cycleResultHeap⟩
    ∧ objField cycleResultHeap (.ref 1) "b" = some (.ref 0)
    ∧ ¬ objField cycleResultHeap (.ref 1) "b" = some (.ref 1) :=
  ⟨rfl, rfl, by decide⟩

/-- C2 amended: for the self-referencing mapping `o.b = o` and the default
predicate, `extract(o)` terminates and returns an empty index and a freshly
allocated clone `c` (address `1`, absent from the input heap); at the cycle
the original reference is passed through unchanged, so `c.b` is the
original `o` itself, which is self-referencing — the clone is
observationally a self-referencing mapping (`c.b.b = c.b`), though `c.b`
is the original object rather than `c`. -/
theorem extractFiles_cycle_clone_aliases_original :
    extractFilesD 10 cycleHeap (.ref 0) "" = .ok ⟨.ref 1, [], cycleResultHeap⟩
    ∧ Heap.lookup cycleResultHeap 1 = some (.obj [("b", .ref 0)])
    ∧ objField cycleResultHeap (.ref 1) "b" = some (.ref 0)
    ∧ objField cycleResultHeap (.ref 0) "b" = some (.ref 0)
    ∧ Heap.lookup cycleHeap 1 = none :=
  ⟨rfl, rfl, rfl, rfl, rfl⟩

/-- C3 counterexample: `extractFiles` is not total over all inputs — for a
`FileList` whose entry is a non-extractable array (`FileList([[]])` with
the default predicate), the `FileList` branch recurses without passing the
visited set, and the array guard's `recursed.has(value)` raises a
`TypeError`. -/
theorem extractFiles_filelist_entry_throws :
    extractFilesD 10 filelistArrHeap (.ref 0) "" = .error .typeError
    ∧ defaultIsExtractableFile filelistArrHeap (.ref 1) = false :=
  ⟨rfl, rfl⟩

/-- C3 amended: `extractFiles` completes and returns a `{clone, index}`
result for every predicate, input value and path prefix, provided every
`FileList` in the input holds only non-container entries (the source's
documented assumption that a `FileList` only contains `File` instances)
and the call stack suffices (gas at least the heap size plus two); a
`FileList` entry that is a non-extractable array or plain object instead
raises a `TypeError`. -/
theorem extractFiles_total_of_flat_filelists (isExt : JSVal → Bool) (gas : Nat) (H : Heap)
    (v : JSVal) (path : String) (hflat : FilelistsFlat H) (hgas : H.length + 2 ≤ gas) :
    ∃ r, extractFiles isExt gas H v path = .ok r := by
  unfold extractFiles
  by_cases hv : v.refBound ≤ Heap.freshAddr H
  · have hInv : HeapInv (Heap.freshAddr H) H ⟨[], H, Heap.freshAddr H⟩ :=
      ⟨List.prefix_rfl, fun p hp => Heap.key_lt_freshAddr hp, le_refl _, fun p hp _ => hp⟩
    have hfc := freeCount_le_length H []
    obtain ⟨c, st', h⟩ := recurse_ok isExt (fun p hp => Heap.refBound_le_freshAddr hp) hflat
      gas v path [] ⟨[], H, Heap.freshAddr H⟩ hInv hv (by omega)
    rw [h]
    exact ⟨_, rfl⟩
  · obtain ⟨g, rfl⟩ : ∃ g, gas = g + 1 := ⟨gas - 1, by omega⟩
    cases v with
    | ref a =>
      have hnone : Heap.lookup H a = none := by
        cases hl : Heap.lookup H a with
        | none => rfl
        | some o =>
          have := Heap.key_lt_freshAddr (Heap.lookup_mem hl)
          simp only [JSVal.refBound] at hv
          omega
      by_cases hx : isExt (.ref a) = true
      · rw [recurse]
        rw [if_pos hx]
        exact ⟨_, rfl⟩
      · rw [recurse]
        rw [if_neg hx]
        simp only [hnone]
        exact ⟨_, rfl⟩
    | undefined => exact absurd (Nat.zero_le _) hv
    | null => exact absurd (Nat.zero_le _) hv
    | bool b => exact absurd (Nat.zero_le _) hv
    | num n => exact absurd (Nat.zero_le _) hv
    | str s2 => exact absurd (Nat.zero_le _) hv

/-- Witness for the amended C3 theorem at a concrete flat input. -/
theorem extractFiles_total_of_flat_filelists_witness :
    FilelistsFlat sharedArrayHeap
    ∧ sharedArrayHeap.length + 2 ≤ 10
    ∧ ∃ r, extractFiles (defaultIsExtractableFile sharedArrayHeap) 10 sharedArrayHeap
        (.ref 2) "" = .ok r :=
  ⟨by decide, by decide,
    extractFiles_total_of_flat_filelists (defaultIsExtractableFile sharedArrayHeap) 10
      sharedArrayHeap (.ref 2) "" (by decide) (by decide)⟩

/-- C4: the index is keyed by object identity with insertion order
preserved: in every successful run the key list of the files map is
duplicate-free (a single entry per leaf identity); when the identity is
already present `addFile` appends the new path at the end of its path list
rather than overwriting, and a first occurrence appends a fresh singleton
entry at the end; concretely, for `{a: f, b: f, c: g}` where `g` is a
distinct instance with contents identical to `f`, the index is
`f ↦ ["a", "b"], g ↦ ["c"]` in first-seen pre-order. -/
theorem extractFiles_index_identity_keyed :
    (∀ (isExt : JSVal → Bool) (gas : Nat) (H : Heap) (v : JSVal) (path : String)
        (r : ExtractResult),
        extractFiles isExt gas H v path = .ok r → (r.files.map Prod.fst).Nodup)
    ∧ (∀ (files : List (JSVal × List String)) (v : JSVal) (p : String) (ps : List String),
        (v, ps) ∈ files → (v, ps ++ [p]) ∈ addFile files v p)
    ∧ (∀ (files : List (JSVal × List String)) (v : JSVal) (p : String),
        files.find? (fun e => e.1 == v) = none → addFile files v p = files ++ [(v, [p])])
    ∧ extractFilesD 10 multiRefHeap (.ref 2) "" =
        .ok ⟨.ref 3, [(.ref 0, ["a", "b"]), (.ref 1, ["c"])], multiRefResultHeap⟩
    ∧ (JSVal.ref 0 ≠ .ref 1)
    ∧ Heap.lookup multiRefHeap 0 = Heap.lookup multiRefHeap 1 := by
  refine ⟨?_, ?_, ?_, rfl, by decide, rfl⟩
  · intro isExt gas H v path r h
    unfold extractFiles at h
    split at h
    · cases h
    · rename_i c st heq
      injection h with h
      subst h
      exact (recurse_steps isExt gas v path (some []) ⟨[], H, Heap.freshAddr H⟩ c st
        heq).nodupPres List.nodup_nil
  · intro files v p ps h
    exact addFile_self_append p h
  · intro files v p h
    exact addFile_new p h

/-- Witness for C4: the identity-keyed index of the concrete run has
duplicate-free keys. -/
theorem extractFiles_index_identity_keyed_witness :
    (([(JSVal.ref 0, ["a", "b"]), (.ref 1, ["c"])].map Prod.fst).Nodup) :=
  extractFiles_index_identity_keyed.1 (defaultIsExtractableFile multiRefHeap) 10 multiRefHeap
    (.ref 2) "" ⟨.ref 3, [(.ref 0, ["a", "b"]), (.ref 1, ["c"])], multiRefResultHeap⟩ rfl

/-- C5: a plain keyed mapping (a generic object, not a class instance) not
in the current visited set is cloned as a fresh mapping: the clone address
is the state's fresh counter (absent from the heap when the counter bounds
its addresses), the branch recurses into every field value at path
`prefix + key` with the visited set extended by this object, and the clone
field list has the same keys in the same enumeration order. -/
theorem recurse_plain_mapping (isExt : JSVal → Bool) (gas : Nat) (a : Nat) (path : String)
    (S : List Nat) (st : ExtractState) (fields : List (String × JSVal))
    (hx : isExt (.ref a) = false)
    (hlk : Heap.lookup st.heap a = some (.obj fields))
    (hS : a ∉ S)
    (hkeys : ∀ p ∈ st.heap, p.1 < st.next) :
    (recurse isExt (gas + 1) (.ref a) path (some S) st =
      match mapFields (fun w p s => recurse isExt gas w p (some (S ++ [a])) s)
          (childPre path) fields { st with next := st.next + 1 } with
      | .error e => .error e
      | .ok (cs, st2) => .ok (.ref st.next, { st2 with heap := st2.heap ++ [(st.next, .obj cs)] }))
    ∧ Heap.lookup st.heap st.next = none
    ∧ (∀ (cs : List (String × JSVal)) (st2 : ExtractState),
        mapFields (fun w p s => recurse isExt gas w p (some (S ++ [a])) s)
          (childPre path) fields { st with next := st.next + 1 } = .ok (cs, st2) →
        cs.map Prod.fst = fields.map Prod.fst) := by
  refine ⟨?_, ?_, ?_⟩
  · rw [recurse]
    rw [if_neg (by simp [hx])]
    simp only [hlk]
    rw [if_neg hS]
  · cases hl : Heap.lookup st.heap st.next with
    | none => rfl
    | some o =>
      have := hkeys _ (Heap.lookup_mem hl)
      omega
  · intro cs st2 h
    exact mapFields_keys h

/-- Witness for C5 at a concrete one-field object. -/
theorem recurse_plain_mapping_witness :
    ((0 : Nat) ∉ ([] : List Nat))
    ∧ recurse (fun _ => false) 2 (.ref 0) "" (some [])
        ⟨[], [(0, .obj [("x", .null)])], 1⟩ =
      .ok (.ref 1, ⟨[], [(0, .obj [("x", .null)]), (1, .obj [("x", .null)])], 2⟩) :=
  ⟨by decide,
    (recurse_plain_mapping (fun _ => false) 1 0 "" [] ⟨[], [(0, .obj [("x", .null)])], 1⟩
      [("x", .null)] rfl rfl (by decide) (by decide)).1⟩

/-- C6: paths are dot-joined: the child-path base for an empty path is
empty (no leading separator) and for a non-empty path is the path followed
by a single `.`; index segments are the plain decimal rendering of the
index with no leading zeros; and `extract({a: [f]}, "prefix")` records `f`
at `"prefix.a.0"`. -/
theorem extractFiles_path_dot_joined :
    childPre "" = ""
    ∧ (∀ p : String, p ≠ "" → childPre p = p ++ ".")
    ∧ (List.range 12).map Nat.repr =
        ["0", "1", "2", "3", "4", "5", "6", "7", "8", "9", "10", "11"]
    ∧ extractFilesD 10 nestedFileHeap (.ref 2) "prefix" =
        .ok ⟨.ref 3, [(.ref 0, ["prefix.a.0"])], nestedFileResultHeap⟩ := by
  refine ⟨rfl, ?_, by decide, rfl⟩
  intro p hp
  unfold childPre
  rw [if_neg hp]

/-- Witness for C6 at a concrete non-empty path. -/
theorem extractFiles_path_dot_joined_witness :
    ("prefix" ≠ "") ∧ childPre "prefix" = "prefix" ++ "." :=
  ⟨by decide, extractFiles_path_dot_joined.2.1 "prefix" (by decide)⟩

/-- C7: the input is never mutated: for every successful call the input
heap is an initial segment of the post-call heap (the call only appends
fresh clone allocations), so every input address still resolves to exactly
the object it held before the call. -/
theorem extractFiles_input_not_mutated :
    ∀ (isExt : JSVal → Bool) (gas : Nat) (H : Heap) (v : JSVal) (path : String)
      (r : ExtractResult),
      extractFiles isExt gas H v path = .ok r →
      H <+: r.heap
      ∧ (∀ (a : Nat) (o : HObj), Heap.lookup H a = some o → Heap.lookup r.heap a = some o) := by
  intro isExt gas H v path r h
  unfold extractFiles at h
  split at h
  · cases h
  · rename_i c st heq
    injection h with h
    subst h
    have hpre : H <+: st.heap :=
      (recurse_steps isExt gas v path (some []) ⟨[], H, Heap.freshAddr H⟩ c st heq).heapExt
    refine ⟨hpre, ?_⟩
    intro a o hl
    obtain ⟨t, ht⟩ := hpre
    rw [← ht, Heap.lookup_append (by rw [hl]; rfl), hl]

/-- Witness for C7 on the shared-array run. -/
theorem extractFiles_input_not_mutated_witness :
    sharedArrayHeap <+: sharedArrayResultHeap :=
  (extractFiles_input_not_mutated (defaultIsExtractableFile sharedArrayHeap) 10
    sharedArrayHeap (.ref 2) ""
    ⟨.ref 3, [(.ref 0, ["a.0", "b.0"])], sharedArrayResultHeap⟩ rfl).1

/-- C8: an extractable value is a leaf: whenever the predicate accepts the
value, `recurse` records `(value, path)` in the files map and returns
`null` with the heap and counter untouched — no recursion into the value's
internal shape occurs; in particular `extract(f)` gives
`{clone: null, index: {f: [""]}}` and `extract(f, "p")` gives
`{clone: null, index: {f: ["p"]}}`. -/
theorem recurse_extractable_leaf :
    (∀ (isExt : JSVal → Bool) (gas : Nat) (v : JSVal) (path : String)
        (rcd : Option (List Nat)) (st : ExtractState),
        isExt v = true →
        recurse isExt (gas + 1) v path rcd st =
          .ok (.null, { st with files := addFile st.files v path }))
    ∧ extractFilesD 5 singleFileHeap (.ref 0) "" =
        .ok ⟨.null, [(.ref 0, [""])], singleFileHeap⟩
    ∧ extractFilesD 5 singleFileHeap (.ref 0) "p" =
        .ok ⟨.null, [(.ref 0, ["p"])], singleFileHeap⟩ := by
  refine ⟨?_, rfl, rfl⟩
  intro isExt gas v path rcd st hx
  cases v
  all_goals simp only [recurse]
  all_goals rw [if_pos hx]

/-- Witness for C8 with the default predicate on a file instance. -/
theorem recurse_extractable_leaf_witness :
    defaultIsExtractableFile singleFileHeap (.ref 0) = true
    ∧ recurse (defaultIsExtractableFile singleFileHeap) 4 (.ref 0) "z" none
        ⟨[], singleFileHeap, 1⟩ =
      .ok (.null, ⟨[(.ref 0, ["z"])], singleFileHeap, 1⟩) :=
  ⟨rfl, recurse_extractable_leaf.1 (defaultIsExtractableFile singleFileHeap) 3 (.ref 0) "z"
    none ⟨[], singleFileHeap, 1⟩ rfl⟩

/-- C9: the marker constructor performs no validation: any three values
(including `undefined` read from absent properties) are stored verbatim in
the `uri`, `name` and `type` fields at construction; a source object with
none of the properties yields `undefined` in all three; the instance
exposes exactly those three fields. -/
theorem reactNativeFile_constructor_verbatim :
    (∀ u n t : JSVal,
        ReactNativeFile.construct [("uri", u), ("name", n), ("type", t)] = ⟨u, n, t⟩)
    ∧ ReactNativeFile.construct [] = ⟨.undefined, .undefined, .undefined⟩
    ∧ (∀ source : List (String × JSVal),
        (ReactNativeFile.construct source).uri = jsGetField source "uri"
        ∧ (ReactNativeFile.construct source).name = jsGetField source "name"
        ∧ (ReactNativeFile.construct source).type = jsGetField source "type")
    ∧ (∀ f : ReactNativeFile, f = ⟨f.uri, f.name, f.type⟩) := by
  refine ⟨?_, rfl, ?_, ?_⟩
  · intro u n t
    rfl
  · intro source
    exact ⟨rfl, rfl, rfl⟩
  · intro f
    rfl
